import Mathlib

/-!
Verification of the Cohort Analysis Dashboard analytical core.

This file gives a shallow embedding, in Lean 4, of the analytical engine of
the dashboard: the selection/pin state model (src/src/App.jsx), the subgroup
aggregators (src/src/components/SubgroupSummary.jsx and
src/src/components/SubgroupComparison.jsx), the preprocessing and the two
dimensionality-reduction pipelines (src/src/utils/dataLoader.js, both the
ml-pca based variant and the from-scratch power-iteration variant), and the
t-SNE gradient-descent update step.

Numbers: the JavaScript source computes in IEEE binary64 floating point.  The
embedding idealises numbers as exact rationals where the code is purely
arithmetic, and as exact reals where a square root is taken
(standardisation divisors, power-iteration renormalisation).  JavaScript
division of zero by zero yields NaN; the Lean model uses the Mathlib
convention x / 0 = 0.  Where that convention matters (degenerate norms in
the power iteration) the theorems conclude that the computed quantity is 0,
while the JavaScript program would produce NaN; under either reading the
claimed property (unit norm) fails, so verdicts are unaffected.
-/

namespace Cohort

/-- A loaded record maps a feature name to a numeric value, or to none for a
missing (null / NaN) entry, as produced by loadFraminghamData. -/
abbrev Rec := String → Option ℚ

/-- The record with every feature missing; stands in for an out-of-range
JavaScript array access producing undefined. -/
def emptyRec : Rec := fun _ => none

/-- data[i] indexing from the source loops (for i = 0 .. n-1). -/
def recAt (data : List Rec) (i : ℕ) : Rec := data.getD i emptyRec

/-! ## Selection/Pin state model (src/src/App.jsx)

State fields mirror the selectedIndices and pinnedIndices useState hooks and
the clusteringMethod selector. -/

/-- The clustering-method selector values of App.jsx. -/
inductive Method where
  | pca
  | umap
deriving DecidableEq

/-- The App.jsx state relevant to the selection/pin model. -/
structure DashState where
  selection : List ℕ
  pinned : List ℕ
  method : Method
deriving DecidableEq

/-- handleBrush from App.jsx: setSelectedIndices(indices). -/
def handleBrush (s : DashState) (indices : List ℕ) : DashState :=
  { s with selection := indices }

/-- handlePin from App.jsx: setPinnedIndices([...selectedIndices]). -/
def handlePin (s : DashState) : DashState :=
  { s with pinned := s.selection }

/-- handleClearPin from App.jsx: setPinnedIndices([]). -/
def handleClearPin (s : DashState) : DashState :=
  { s with pinned := [] }

/-- handleClearSelection from App.jsx: setSelectedIndices([]). -/
def handleClearSelection (s : DashState) : DashState :=
  { s with selection := [] }

/-- The user-visible operations of the dashboard session: the four
selection/pin transitions plus changing the clustering method, which fires
the recompute effect of App.jsx (useEffect on [clusteringMethod, data]). -/
inductive DashEvent where
  | brush (indices : List ℕ)
  | pin
  | clearPin
  | clearSelection
  | setMethod (m : Method)

/-- One step of the App.jsx event loop.  brush/pin/clearPin/clearSelection
are the four handlers; setMethod models selecting a new clustering method,
whose effect body runs setSelectedIndices([]) (the source comment reads
Clear selection when switching methods) before recomputing the projection.
The projection itself is not part of this state. -/
def dashStep (s : DashState) : DashEvent → DashState
  | .brush indices => handleBrush s indices
  | .pin => handlePin s
  | .clearPin => handleClearPin s
  | .clearSelection => handleClearSelection s
  | .setMethod m => { s with method := m, selection := [] }

/-! ## Subgroup aggregators -/

/-- d3.mean over an accessor: ignores missing (null/undefined/NaN) values;
returns undefined (none) when no valid value is present, else the
arithmetic mean of the valid ones. -/
def d3mean (xs : List (Option ℚ)) : Option ℚ :=
  let vs := xs.filterMap id
  if vs.length = 0 then none else some (vs.sum / vs.length)

/-- The statistics record of SubgroupSummary.jsx.  Means keep the
d3.mean option (the component renders them with optional chaining);
percentages are plain numbers. -/
structure SummStats where
  n : ℕ
  avgAge : Option ℚ
  avgBMI : Option ℚ
  avgCholesterol : Option ℚ
  avgSysBP : Option ℚ
  pctMale : ℚ
  pctSmoker : ℚ
  pctDiabetes : ℚ
  pctHypertension : ℚ
  pctCHD : ℚ
deriving DecidableEq

/-- Percentage-true of a binary flag over a subset: count(value === 1) /
subset.length * 100, as in SubgroupSummary.jsx. -/
def pctOf (subset : List Rec) (f : String) : ℚ :=
  ((subset.filter (fun d => d f = some 1)).length : ℚ) / (subset.length : ℚ) * 100

/-- The SubgroupSummary.jsx aggregation: none (placeholder rendering, the
no-data signal) when the selection is empty, else the five means and five
percentages over subset = selectedIndices.map(i => data[i]). -/
def summarize (data : List Rec) (selectedIndices : List ℕ) : Option SummStats :=
  if selectedIndices.length = 0 then none else
  let subset := selectedIndices.map (recAt data)
  some
    { n := subset.length
      avgAge := d3mean (subset.map (fun d => d "age"))
      avgBMI := d3mean (subset.map (fun d => d "BMI"))
      avgCholesterol := d3mean (subset.map (fun d => d "totChol"))
      avgSysBP := d3mean (subset.map (fun d => d "sysBP"))
      pctMale := pctOf subset "male"
      pctSmoker := pctOf subset "currentSmoker"
      pctDiabetes := pctOf subset "diabetes"
      pctHypertension := pctOf subset "prevalentHyp"
      pctCHD := pctOf subset "TenYearCHD" }

/-- The five-metric record of computeStats in SubgroupComparison.jsx.  All
fields are plain numbers because the source coalesces each metric with
a trailing zero-default (the x || 0 pattern). -/
structure CompStats where
  avgAge : ℚ
  avgBMI : ℚ
  avgSysBP : ℚ
  pctDiabetes : ℚ
  pctCHD : ℚ
deriving DecidableEq

/-- computeStats from SubgroupComparison.jsx: null on an empty index list,
subset = indices.map(i => data[i]).filter(d => d) (dropping out-of-range
accesses), null if the subset is empty, else the five metrics.  Each
d3.mean is coalesced with || 0, so an undefined mean becomes the number 0;
the percentages are never NaN here (subset is non-empty), so their || 0
is the identity. -/
def computeStats (data : List Rec) (indices : List ℕ) : Option CompStats :=
  if indices.length = 0 then none else
  let subset := indices.filterMap (fun i => data[i]?)
  if subset.length = 0 then none else
  some
    { avgAge := (d3mean (subset.map (fun d => d "age"))).getD 0
      avgBMI := (d3mean (subset.map (fun d => d "BMI"))).getD 0
      avgSysBP := (d3mean (subset.map (fun d => d "sysBP"))).getD 0
      pctDiabetes := pctOf subset "diabetes"
      pctCHD := pctOf subset "TenYearCHD" }

/-- The three aggregations of SubgroupComparison.jsx: fullStats over all
indices, selectedStats (guarded by selectedIndices.length > 0), and
pinnedStats (guarded by pinnedIndices.length > 0). -/
def comparisonStats (data : List Rec) (selectedIndices pinnedIndices : List ℕ) :
    Option CompStats × Option CompStats × Option CompStats :=
  (computeStats data (List.range data.length),
   if 0 < selectedIndices.length then computeStats data selectedIndices else none,
   if 0 < pinnedIndices.length then computeStats data pinnedIndices else none)

/-- Modelled from the spec: section 4.5 says the mean of a feature with zero
present values is undefined/null for that feature only.  This is the
specified (not the implemented) mean for the comparison variant; the
implementation coalesces it with || 0. -/
def specCompAvgAge (data : List Rec) (indices : List ℕ) : Option ℚ :=
  d3mean ((indices.filterMap (fun i => data[i]?)).map (fun d => d "age"))

/-! ## Preprocessing (preprocessData in src/src/utils/dataLoader.js)

Step 1 medians, step 2 imputation with the all-missing flag, step 3 the
drop of all-missing records into matrix/validIndices. -/

/-- The column median of preprocessData step 1: sort the present values
ascending; 0 on an empty column; the middle element for odd length, the
mean of the two middle elements for even length. -/
def medianOfVals (vals : List ℚ) : ℚ :=
  let sorted := vals.mergeSort (fun a b => a ≤ b)
  let mid := sorted.length / 2
  if sorted.length = 0 then 0
  else if sorted.length % 2 = 0 then (sorted.getD (mid - 1) 0 + sorted.getD mid 0) / 2
  else sorted.getD mid 0

/-- medians[j] for feature f: the median of all non-missing values of f
across the entire dataset. -/
def medianOf (data : List Rec) (f : String) : ℚ :=
  medianOfVals (data.filterMap (fun d => d f))

/-- The allMissing flag of preprocessData step 2: true when every requested
feature of the record is missing (vacuously true for an empty feature
list). -/
def recordAllMissing (rec : Rec) (features : List String) : Bool :=
  features.all (fun f => (rec f).isNone)

/-- The row built in preprocessData step 2: the record value where present,
the column median where missing. -/
def imputedRow (data : List Rec) (features : List String) (rec : Rec) : List ℚ :=
  features.map (fun f => match rec f with
    | some v => v
    | none => medianOf data f)

/-- validIndices of preprocessData: the loop indices i whose record is not
all-missing, in loop order. -/
def preprocValidIndices (data : List Rec) (features : List String) : List ℕ :=
  (List.range data.length).filter (fun i => !(recordAllMissing (recAt data i) features))

/-- matrix of preprocessData: the imputed rows of the kept records, in loop
order. -/
def preprocMatrix (data : List Rec) (features : List String) : List (List ℚ) :=
  (preprocValidIndices data features).map (fun i => imputedRow data features (recAt data i))

/-! ## Inline preprocessing of the power-iteration computePCA variant
(dataLoader.js, power-iteration variant).  This variant builds the row as
features.map(f => data[i][f]) and keeps the record only when
row.every(v => v !== null && !isNaN(v)), with no imputation. -/

/-- The keep test of the power-iteration variant: every requested feature
is present. -/
def rowAllPresent (rec : Rec) (features : List String) : Bool :=
  features.all (fun f => (rec f).isSome)

/-- validIndices of the power-iteration variant: indices of fully present
records. -/
def powerValidIndices (data : List Rec) (features : List String) : List ℕ :=
  (List.range data.length).filter (fun i => rowAllPresent (recAt data i) features)

/-- matrix of the power-iteration variant: the raw rows of the kept records
(all values present, so the getD default is never read). -/
def powerMatrixQ (data : List Rec) (features : List String) : List (List ℚ) :=
  (powerValidIndices data features).map
    (fun i => features.map (fun f => (recAt data i f).getD 0))

/-! ## Standardisation (step 3 of preprocessData; identically inlined in the
power-iteration computePCA variant).  Means and variances are rational; the
divisor takes a real square root: Math.sqrt(variance) || 1 is 1 exactly
when the variance is 0 and the positive root otherwise. -/

/-- Column j of a rational matrix, as read by the reduce loops (getD 0 is
never hit for in-range j on rectangular matrices). -/
def columnOf (M : List (List ℚ)) (j : ℕ) : List ℚ :=
  M.map (fun row => row.getD j 0)

/-- means[j]: sum of the column over matrix.length. -/
def qMean (xs : List ℚ) : ℚ := xs.sum / xs.length

/-- The population variance of a column: mean of squared deviations. -/
def qVar (xs : List ℚ) : ℚ :=
  (xs.map (fun v => (v - qMean xs) ^ 2)).sum / xs.length

/-- stds[j] = Math.sqrt(variance) || 1: the divisor 1 replaces a zero
standard deviation. -/
noncomputable def stdReal (xs : List ℚ) : ℝ :=
  if qVar xs = 0 then 1 else Real.sqrt (qVar xs)

/-- One standardised entry: (value - mean) / std. -/
noncomputable def normEntry (xs : List ℚ) (v : ℚ) : ℝ :=
  ((v : ℝ) - (qMean xs : ℝ)) / stdReal xs

/-- The standardised matrix: normalized[i][j] = (matrix[i][j] - means[j]) /
stds[j]. -/
noncomputable def normalizedMatrixR (M : List (List ℚ)) : List (List ℝ) :=
  M.map (fun row => row.mapIdx (fun j v => normEntry (columnOf M j) v))

/-- Column j of a real matrix. -/
def columnOfR (N : List (List ℝ)) (j : ℕ) : List ℝ :=
  N.map (fun row => row.getD j 0)

/-- Mean of a real list (used to state the standardisation invariant). -/
noncomputable def rMean (xs : List ℝ) : ℝ := xs.sum / xs.length

/-- Population variance of a real list. -/
noncomputable def rVar (xs : List ℝ) : ℝ :=
  (xs.map (fun v => (v - rMean xs) ^ 2)).sum / xs.length

/-- The standardised matrix of the power-iteration computePCA variant,
obtained from its strictly filtered raw matrix. -/
noncomputable def powerNormalizedR (data : List Rec) (features : List String) :
    List (List ℝ) :=
  normalizedMatrixR (powerMatrixQ data features)

/-! ## The ml-pca based computePCA (dataLoader.js, first variant)

Only its early-return contract is in-repo logic; the spectral work is
delegated to the external ml-pca library, abstracted here as a function
argument. -/

/-- The result shape of computePCA/computeTSNE relevant to the error-handling
claims: a projection and the validIndices. -/
structure PCARes where
  projection : List (ℝ × ℝ)
  validIndices : List ℕ

/-- computePCA (ml-pca variant): preprocess, return the empty result when
normalized.length === 0, else delegate the projection to the library
(abstracted as lib). -/
noncomputable def computePCAMain (lib : List (List ℝ) → List (ℝ × ℝ))
    (data : List Rec) (features : List String) : PCARes :=
  let N := normalizedMatrixR (preprocMatrix data features)
  if N.length = 0 then ⟨[], []⟩
  else ⟨lib N, preprocValidIndices data features⟩

/-- A stand-in for the external ml-pca projection: visibly non-empty on
non-empty input, to witness that the empty results below come from the
early return and not from the library. -/
def constLib : List (List ℝ) → List (ℝ × ℝ) := fun N => N.map (fun _ => (1, 1))

/-! ## The from-scratch power iteration (power-iteration computePCA variant)

Vectors over Fin m; the covariance of the standardised matrix; 50
renormalised multiplications for the first axis; deflation; 100
re-orthogonalised multiplications with an early break for the second axis;
Rayleigh-quotient eigenvalues and variance explained. -/

/-- cov[i][j] = sum over rows of normalized[k][i] * normalized[k][j], over
normalized.length. -/
noncomputable def covOfR (N : List (List ℝ)) (m : ℕ) : Fin m → Fin m → ℝ :=
  fun i j => ((N.map (fun r => r.getD i 0 * r.getD j 0)).sum) / (N.length : ℝ)

/-- The seed of the first power iteration: pc1 = [1, 0, ..., 0]. -/
def e1v (m : ℕ) : Fin m → ℝ := fun i => if (i : ℕ) = 0 then 1 else 0

/-- The seed of the second power iteration: pc2 = [0, 1, 0, ..., 0]. -/
def e2v (m : ℕ) : Fin m → ℝ := fun i => if (i : ℕ) = 1 then 1 else 0

/-- newPc[i] = sum over j of C[i][j] * v[j]. -/
noncomputable def matVec {m : ℕ} (C : Fin m → Fin m → ℝ) (v : Fin m → ℝ) :
    Fin m → ℝ :=
  fun i => ∑ j, C i j * v j

/-- norm = Math.sqrt(v.reduce((sum, x) => sum + x * x, 0)). -/
noncomputable def vnorm {m : ℕ} (v : Fin m → ℝ) : ℝ :=
  Real.sqrt (∑ i, v i * v i)

/-- The dot product reduce of the source. -/
noncomputable def dotv {m : ℕ} (v w : Fin m → ℝ) : ℝ := ∑ i, v i * w i

/-- One iteration of the first power loop: multiply by C and divide by the
norm.  The source divides unguarded; a zero norm gives NaN in JavaScript
and 0 under the Lean division convention. -/
noncomputable def powerStep {m : ℕ} (C : Fin m → Fin m → ℝ) (v : Fin m → ℝ) :
    Fin m → ℝ :=
  fun i => matVec C v i / vnorm (matVec C v)

/-- pc1 after the 50 iterations of the first power loop. -/
noncomputable def pc1Final {m : ℕ} (C : Fin m → Fin m → ℝ) : Fin m → ℝ :=
  (powerStep C)^[50] (e1v m)

/-- lambda += cov[i][j] * v[i] * v[j]: the Rayleigh quotient of v against C
(for unit v). -/
noncomputable def rayleighQ {m : ℕ} (C : Fin m → Fin m → ℝ) (v : Fin m → ℝ) : ℝ :=
  ∑ i, ∑ j, C i j * v i * v j

/-- The first eigenvalue estimate of the source. -/
noncomputable def lambda1C {m : ℕ} (C : Fin m → Fin m → ℝ) : ℝ :=
  rayleighQ C (pc1Final C)

/-- The deflated covariance: residualCov[i][j] = cov[i][j] - lambda1 *
pc1[i] * pc1[j]. -/
noncomputable def residualC {m : ℕ} (C : Fin m → Fin m → ℝ) : Fin m → Fin m → ℝ :=
  fun i j => C i j - lambda1C C * pc1Final C i * pc1Final C j

/-- The early-stop threshold of the second loop (the 1e-10 literal). -/
noncomputable def eps10 : ℝ := 1 / 10 ^ 10

/-- One iteration of the second power loop, with the early break carried as
a stopped flag: multiply by the residual, subtract the projection onto
pc1, break (keeping the previous vector) when the norm is below 1e-10,
else renormalise. -/
noncomputable def pc2Step {m : ℕ} (R : Fin m → Fin m → ℝ) (pcOne : Fin m → ℝ)
    (s : (Fin m → ℝ) × Bool) : (Fin m → ℝ) × Bool :=
  if s.2 then s else
  let w := matVec R s.1
  let w2 := fun i => w i - dotv w pcOne * pcOne i
  if vnorm w2 < eps10 then (s.1, true)
  else ((fun i => w2 i / vnorm w2), false)

/-- pc2 after the 100 iterations of the second power loop. -/
noncomputable def pc2Final {m : ℕ} (C : Fin m → Fin m → ℝ) : Fin m → ℝ :=
  ((pc2Step (residualC C) (pc1Final C))^[100] (e2v m, false)).1

/-- The second eigenvalue estimate, computed against the original C. -/
noncomputable def lambda2C {m : ℕ} (C : Fin m → Fin m → ℝ) : ℝ :=
  rayleighQ C (pc2Final C)

/-- totalVar: the trace of the covariance matrix. -/
noncomputable def traceC {m : ℕ} (C : Fin m → Fin m → ℝ) : ℝ := ∑ i, C i i

/-- varExplained1 = lambda1 / totalVar * 100. -/
noncomputable def varExplained1 {m : ℕ} (C : Fin m → Fin m → ℝ) : ℝ :=
  lambda1C C / traceC C * 100

/-- varExplained2 = lambda2 / totalVar * 100. -/
noncomputable def varExplained2 {m : ℕ} (C : Fin m → Fin m → ℝ) : ℝ :=
  lambda2C C / traceC C * 100

/-! ## The t-SNE gradient-descent update step (computeTSNE in
dataLoader.js, lines 307-338): adaptive gains, momentum, learning rate 200,
and the periodic re-centering. -/

/-- Math.sign: 1 on positives, -1 on negatives, 0 on zero. -/
def jsSign (q : ℚ) : ℚ := if 0 < q then 1 else if q < 0 then -1 else 0

/-- The adaptive-gain update: decay by 0.8 when the gradient sign equals
the sign of the previous momentum step, else grow by 0.2; floor at
0.01. -/
def updGain (g grad iy : ℚ) : ℚ :=
  let g2 := if jsSign grad = jsSign iy then g * (8 / 10) else g + 2 / 10
  if g2 < 1 / 100 then 1 / 100 else g2

/-- The momentum coefficient: 0.5 for the first 250 iterations, 0.8 after. -/
def momCoef (iter : ℕ) : ℚ := if iter < 250 then 1 / 2 else 8 / 10

/-- The per-point state of the t-SNE descent: position Y[i], momentum term
iY[i], gains gains[i], each with two coordinates. -/
structure TPt where
  y1 : ℚ
  y2 : ℚ
  iy1 : ℚ
  iy2 : ℚ
  g1 : ℚ
  g2 : ℚ
deriving DecidableEq

/-- The per-point update of the solution loop: new gains, then iY[i][d] =
momentum * iY[i][d] - 200 * gains[i][d] * grad[i][d], then Y[i][d] +=
iY[i][d]. -/
def updPoint (iter : ℕ) (grad : ℚ × ℚ) (p : TPt) : TPt :=
  let ng1 := updGain p.g1 grad.1 p.iy1
  let ng2 := updGain p.g2 grad.2 p.iy2
  let niy1 := momCoef iter * p.iy1 - 200 * ng1 * grad.1
  let niy2 := momCoef iter * p.iy2 - 200 * ng2 * grad.2
  { y1 := p.y1 + niy1, y2 := p.y2 + niy2, iy1 := niy1, iy2 := niy2, g1 := ng1, g2 := ng2 }

/-- The zero-mean re-centering: subtract the mean of each coordinate from
every point. -/
def recenterPts (pts : List TPt) : List TPt :=
  let mx := (pts.map (fun p => p.y1)).sum / (pts.length : ℚ)
  let my := (pts.map (fun p => p.y2)).sum / (pts.length : ℚ)
  pts.map (fun p => { p with y1 := p.y1 - mx, y2 := p.y2 - my })

/-- One full iteration of the gradient-descent update given the computed
gradients: per-point updates, then re-centering exactly when
iter % 10 === 0. -/
def tsneUpdate (iter : ℕ) (grads : List (ℚ × ℚ)) (pts : List TPt) : List TPt :=
  let upd := List.zipWith (updPoint iter) grads pts
  if iter % 10 = 0 then recenterPts upd else upd

/-! ## Fixtures -/

/-- Fixture record for the aggregator-completeness claim: known age and
male flag. -/
def fixRec (age male : ℚ) : Rec :=
  fun f => if f = "age" then some age else if f = "male" then some male else none

/-- The four-record fixture with ages [40, 50, 60, 70] and male flags
[1, 0, 1, 0]. -/
def fix4 : List Rec := [fixRec 40 1, fixRec 50 0, fixRec 60 1, fixRec 70 0]

/-- A record with age missing but the other comparison features present. -/
def cRec : Rec :=
  fun f => if f = "BMI" then some 20 else if f = "sysBP" then some 120
    else if f = "diabetes" then some 0 else if f = "TenYearCHD" then some 0 else none

/-- A one-record dataset whose only record has no age value. -/
def cData : List Rec := [cRec]

/-- A record with both preprocessing test features present. -/
def recFull : Rec :=
  fun f => if f = "age" then some 40 else if f = "BMI" then some 22 else none

/-- A record with age present and BMI missing (partially missing). -/
def recPartial : Rec := fun f => if f = "age" then some 50 else none

/-- Two records: one fully present, one partially missing. -/
def c3data : List Rec := [recFull, recPartial]

/-- The requested feature list for the preprocessing counterexample. -/
def c3feats : List String := ["age", "BMI"]

/-- A one-record dataset with a present age, used to probe the
empty-feature-list behaviour. -/
def oneRec : Rec := fun f => if f = "age" then some 40 else none

/-- A t-SNE point at the origin with unit gains and zero momentum. -/
def pt0 : TPt := ⟨0, 0, 0, 0, 1, 1⟩

/-- A record holding x = 1. -/
def wRecA : Rec := fun f => if f = "x" then some 1 else none

/-- A record holding x = 3. -/
def wRecB : Rec := fun f => if f = "x" then some 3 else none

/-- A two-record dataset over the single feature x. -/
def w4data : List Rec := [wRecA, wRecB]

/-- The identity covariance on two features, as produced by two
uncorrelated standardised columns. -/
def idC : Fin 2 → Fin 2 → ℝ := fun i j => if i = j then 1 else 0

/-- Four records over features a, b whose standardised columns are
orthogonal with unit variance: a = [1, 1, -1, -1], b = [1, -1, 1, -1]. -/
def n4Rec (a b : ℚ) : Rec :=
  fun f => if f = "a" then some a else if f = "b" then some b else none

/-- The four-record identity-covariance dataset. -/
def n4data : List Rec := [n4Rec 1 1, n4Rec 1 (-1), n4Rec (-1) 1, n4Rec (-1) (-1)]

/-- The standardised matrix of n4data: two orthogonal unit-variance
columns. -/
def n4 : List (List ℝ) := [[1, 1], [1, -1], [-1, 1], [-1, -1]]

/-- A record with a constant feature a = 5 and a varying feature b. -/
def c6Rec (b : ℚ) : Rec :=
  fun f => if f = "a" then some 5 else if f = "b" then some b else none

/-- Two records whose feature a is constant (zero variance) and whose
feature b takes values 1 and 3. -/
def c6data : List Rec := [c6Rec 1, c6Rec 3]

/-- The feature list of the constant-column counterexample. -/
def c6feats : List String := ["a", "b"]

/-- The standardised matrix of c6data: the constant column becomes the
zero column, the other is standardised to [-1, 1]. -/
def n6 : List (List ℝ) := [[0, -1], [0, 1]]

/-- The covariance matrix of n6: a zero row and column from the constant
feature. -/
def cC6 : Fin 2 → Fin 2 → ℝ := fun i j => if (i : ℕ) = 1 ∧ (j : ℕ) = 1 then 1 else 0

/-- A record over features a, b, c with b = c (perfectly correlated). -/
def c7Rec (a b : ℚ) : Rec :=
  fun f => if f = "a" then some a else
    if f = "b" then some b else if f = "c" then some b else none

/-- Four records where the standardised a column is orthogonal to the
b and c columns and b = c: the covariance has eigenvalues 2, 1, 0 and the
power-iteration seed e1 is exactly the eigenvector of the non-dominant
eigenvalue 1. -/
def c7data : List Rec := [c7Rec 1 1, c7Rec 1 (-1), c7Rec (-1) 1, c7Rec (-1) (-1)]

/-- The feature list of the variance-ordering counterexample. -/
def c7feats : List String := ["a", "b", "c"]

/-- The standardised matrix of c7data. -/
def n7 : List (List ℝ) := [[1, 1, 1], [1, -1, -1], [-1, 1, 1], [-1, -1, -1]]

/-- The covariance matrix of n7: identity on feature a, all-ones block on
the perfectly correlated features b and c. -/
def cC7 : Fin 3 → Fin 3 → ℝ :=
  fun i j => if (i : ℕ) = 0 ∨ (j : ℕ) = 0 then (if i = j then 1 else 0) else 1

/-- The second axis the power iteration settles on for cC7. -/
noncomputable def v7 : Fin 3 → ℝ := fun i => if (i : ℕ) = 0 then 0 else Real.sqrt 2 / 2

/-! ## Helper lemmas -/

/-- Sum of a constant shift over a rational list. -/
theorem lsum_center (l : List ℚ) (c : ℚ) :
    (l.map (fun x => x - c)).sum = l.sum - l.length * c := by
  induction l with
  | nil => simp
  | cons a t ih =>
      simp only [List.map_cons, List.sum_cons, ih, List.length_cons]
      push_cast
      ring

/-- Re-centering a non-empty point list gives exactly zero mean on both
axes. -/
theorem recenter_mean_zero (ps : List TPt) (h : ps ≠ []) :
    qMean ((recenterPts ps).map (fun p => p.y1)) = 0 ∧
    qMean ((recenterPts ps).map (fun p => p.y2)) = 0 := by
  have hn : (ps.length : ℚ) ≠ 0 := by
    have h0 : ps.length ≠ 0 := fun h0 => h (List.length_eq_zero.mp h0)
    exact_mod_cast h0
  have h1 : (recenterPts ps).map (fun p => p.y1) =
      (ps.map (fun p => p.y1)).map
        (fun x => x - (ps.map (fun p => p.y1)).sum / (ps.length : ℚ)) := by
    simp [recenterPts, List.map_map, Function.comp_def]
  have h2 : (recenterPts ps).map (fun p => p.y2) =
      (ps.map (fun p => p.y2)).map
        (fun x => x - (ps.map (fun p => p.y2)).sum / (ps.length : ℚ)) := by
    simp [recenterPts, List.map_map, Function.comp_def]
  constructor
  · rw [h1]
    unfold qMean
    rw [lsum_center]
    simp only [List.length_map]
    field_simp
  · rw [h2]
    unfold qMean
    rw [lsum_center]
    simp only [List.length_map]
    field_simp

/-! ## Helper lemmas for the standardisation invariant -/

/-- Distributing a real division over a mapped sum. -/
theorem rsum_map_div (l : List ℚ) (f : ℚ → ℝ) (c : ℝ) :
    (l.map (fun x => f x / c)).sum = (l.map f).sum / c := by
  induction l with
  | nil => simp
  | cons a t ih => simp [ih, add_div]

/-- Sum of a mapped function minus a constant. -/
theorem rsum_map_sub (l : List ℚ) (f : ℚ → ℝ) (c : ℝ) :
    (l.map (fun x => f x - c)).sum = (l.map f).sum - l.length * c := by
  induction l with
  | nil => simp
  | cons a t ih =>
      simp only [List.map_cons, List.sum_cons, ih, List.length_cons]
      push_cast
      ring

/-- A mapped rational computation summed in the reals equals the cast of
the rational sum. -/
theorem rsum_map_cast (l : List ℚ) (g : ℚ → ℚ) :
    (l.map (fun x => ((g x : ℚ) : ℝ))).sum = (((l.map g).sum : ℚ) : ℝ) := by
  induction l with
  | nil => simp
  | cons a t ih => simp [ih]

/-- The real sum of the casts of a rational list is the cast of its sum. -/
theorem rsum_cast (l : List ℚ) :
    (l.map (fun x : ℚ => (x : ℝ))).sum = ((l.sum : ℚ) : ℝ) := by
  induction l with
  | nil => simp
  | cons a t ih => simp only [List.map_cons, List.sum_cons, ih, Rat.cast_add]

/-- The population variance of preprocessData is nonnegative. -/
theorem qVar_nonneg (xs : List ℚ) : 0 ≤ qVar xs := by
  unfold qVar
  apply div_nonneg
  · apply List.sum_nonneg
    intro x hx
    obtain ⟨a, _, rfl⟩ := List.mem_map.mp hx
    exact sq_nonneg _
  · exact_mod_cast Nat.zero_le _

/-- The standardisation divisor Math.sqrt(variance) || 1 is positive, so
the division in step 4 is never a division by zero. -/
theorem stdReal_pos (xs : List ℚ) : 0 < stdReal xs := by
  unfold stdReal
  split_ifs with h
  · norm_num
  · refine Real.sqrt_pos.mpr ?_
    have := lt_of_le_of_ne (qVar_nonneg xs) (Ne.symm h)
    exact_mod_cast this

/-- The square of the nondegenerate standardisation divisor recovers the
variance. -/
theorem stdReal_sq (xs : List ℚ) (h : qVar xs ≠ 0) :
    stdReal xs ^ 2 = ((qVar xs : ℚ) : ℝ) := by
  unfold stdReal
  rw [if_neg h]
  exact Real.sq_sqrt (by exact_mod_cast qVar_nonneg xs)

/-- A zero sum of squared rational deviations forces every element to the
mean. -/
theorem sq_sum_zero (l : List ℚ) (μ : ℚ)
    (h : (l.map (fun x => (x - μ) ^ 2)).sum = 0) : ∀ x ∈ l, x = μ := by
  induction l with
  | nil => simp
  | cons a t ih =>
      simp only [List.map_cons, List.sum_cons] at h
      have ht : 0 ≤ (t.map (fun x => (x - μ) ^ 2)).sum := by
        apply List.sum_nonneg
        intro x hx
        obtain ⟨b, _, rfl⟩ := List.mem_map.mp hx
        exact sq_nonneg _
      have ha : (a - μ) ^ 2 = 0 := by nlinarith [sq_nonneg (a - μ)]
      intro x hx
      rcases List.mem_cons.mp hx with hx | hx
      · rw [hx]
        have := pow_eq_zero_iff (n := 2) (by norm_num) |>.mp ha
        linarith [this]
      · exact ih (by linarith [ha]) x hx

/-- Reading a mapIdx entry through getD, in range. -/
theorem getD_mapIdx (l : List ℚ) (f : ℕ → ℚ → ℝ) (j : ℕ) (h : j < l.length) :
    (l.mapIdx f).getD j 0 = f j (l.getD j 0) := by
  have h2 : j < (l.mapIdx f).length := by rw [List.length_mapIdx]; exact h
  rw [List.getD_eq_get _ _ h2, List.getD_eq_get _ _ h]
  exact List.get_mapIdx l f j h

/-- Column j of the standardised matrix is the column of the input matrix
passed pointwise through the standardisation entry map, for j in range of
every row. -/
theorem columnOfR_normalized (M : List (List ℚ)) (j : ℕ)
    (hrow : ∀ row ∈ M, j < row.length) :
    columnOfR (normalizedMatrixR M) j =
      (columnOf M j).map (fun v => normEntry (columnOf M j) v) := by
  unfold columnOfR normalizedMatrixR columnOf
  rw [List.map_map, List.map_map]
  apply List.map_congr_left
  intro row hr
  exact getD_mapIdx row _ j (hrow row hr)

/-- The standardisation invariant for one non-empty column: exact zero
mean; exact unit population variance when the column is not constant; a
uniformly zero column when it is. -/
theorem normalized_col_props (xs : List ℚ) (h : xs ≠ []) :
    rMean (xs.map (fun v => normEntry xs v)) = 0 ∧
    (qVar xs ≠ 0 → rVar (xs.map (fun v => normEntry xs v)) = 1) ∧
    (qVar xs = 0 → ∀ y ∈ xs.map (fun v => normEntry xs v), y = 0) := by
  have h0 : xs.length ≠ 0 := fun h0 => h (List.length_eq_zero.mp h0)
  have hn : (xs.length : ℝ) ≠ 0 := by exact_mod_cast h0
  have hs : stdReal xs ≠ 0 := ne_of_gt (stdReal_pos xs)
  have hsum : (xs.map (fun v => normEntry xs v)).sum = 0 := by
    unfold normEntry
    rw [rsum_map_div, rsum_map_sub, rsum_cast]
    have hmean : (qMean xs : ℝ) = ((xs.sum : ℚ) : ℝ) / (xs.length : ℝ) := by
      unfold qMean
      push_cast
      ring
    rw [hmean]
    field_simp
  have hmean0 : rMean (xs.map (fun v => normEntry xs v)) = 0 := by
    unfold rMean
    rw [hsum]
    simp
  refine ⟨hmean0, ?_, ?_⟩
  · intro hv
    have hvR : ((qVar xs : ℚ) : ℝ) ≠ 0 := by exact_mod_cast hv
    unfold rVar
    rw [hmean0]
    simp only [sub_zero, List.map_map, Function.comp_def, List.length_map]
    have hsq : ∀ v : ℚ, normEntry xs v ^ 2 = ((v : ℝ) - (qMean xs : ℝ)) ^ 2 / stdReal xs ^ 2 := by
      intro v
      unfold normEntry
      rw [div_pow]
    simp only [hsq]
    rw [rsum_map_div]
    have hcast : (xs.map (fun v : ℚ => ((v : ℝ) - (qMean xs : ℝ)) ^ 2)).sum =
        (((xs.map (fun x => (x - qMean xs) ^ 2)).sum : ℚ) : ℝ) := by
      rw [← rsum_map_cast xs (fun x => (x - qMean xs) ^ 2)]
      refine congrArg List.sum (List.map_congr_left ?_)
      intro a _
      push_cast
      ring
    rw [hcast]
    have hvar : ((xs.map (fun x => (x - qMean xs) ^ 2)).sum : ℚ) = qVar xs * xs.length := by
      unfold qVar
      field_simp
    rw [hvar, stdReal_sq xs hv]
    push_cast
    field_simp
  · intro hv y hy
    obtain ⟨v, hvmem, rfl⟩ := List.mem_map.mp hy
    have hzero : (xs.map (fun x => (x - qMean xs) ^ 2)).sum = 0 := by
      unfold qVar at hv
      rw [div_eq_zero_iff] at hv
      rcases hv with hv | hv
      · exact hv
      · exact absurd (by exact_mod_cast hv) h0
    have := sq_sum_zero xs (qMean xs) hzero v hvmem
    unfold normEntry
    rw [this]
    simp

/-! ## C1 -/

/-- C1: brushing replaces the Selection wholesale (brush(A) then brush(B)
leaves Selection = B, not the union); pinning after brush(A) and a further
brush(B) leaves Pin = A (the snapshot of the Selection at pin time) and
Selection = B; and pinning with an empty Selection yields an empty Pin. -/
theorem c1_selection_pin_semantics (s : DashState) (A B : List ℕ) :
    (handleBrush (handleBrush s A) B).selection = B ∧
    (handleBrush (handlePin (handleBrush s A)) B).pinned = A ∧
    (handleBrush (handlePin (handleBrush s A)) B).selection = B ∧
    (s.selection = [] → (handlePin s).pinned = []) := by
  refine ⟨rfl, rfl, rfl, fun h => ?_⟩
  simp [handlePin, handleBrush, h]

/-- C1 witness: the state model evaluated at a concrete session. -/
theorem c1_selection_pin_semantics_witness :
    (⟨[], [7], Method.pca⟩ : DashState).selection = [] ∧
    ((handleBrush (handleBrush ⟨[], [7], Method.pca⟩ [1, 2]) [3]).selection = [3] ∧
     (handleBrush (handlePin (handleBrush ⟨[], [7], Method.pca⟩ [1, 2])) [3]).pinned = [1, 2] ∧
     (handleBrush (handlePin (handleBrush ⟨[], [7], Method.pca⟩ [1, 2])) [3]).selection = [3] ∧
     (handlePin ⟨[], [7], Method.pca⟩).pinned = []) := by
  refine ⟨rfl, ?_⟩
  have h := c1_selection_pin_semantics ⟨[], [7], Method.pca⟩ [1, 2] [3]
  exact ⟨h.1, h.2.1, h.2.2.1, h.2.2.2 rfl⟩

/-! ## C2 -/

/-- C2 counterexample: switching the clustering method is not one of the
four transitions, yet it changes the Selection — the recompute effect of
App.jsx runs setSelectedIndices([]).  At the concrete state with Selection
[5], switching from PCA to UMAP empties the Selection. -/
theorem c2_counterexample :
    (dashStep ⟨[5], [7], Method.pca⟩ (DashEvent.setMethod Method.umap)).selection ≠
      (⟨[5], [7], Method.pca⟩ : DashState).selection := by
  decide

/-- C2 amended: Pin changes only through pin/clearPin — brushing, clearing
the Selection and switching the method all leave Pin unchanged — and
Selection changes only through brush/clearSelection/method-switch, where
the method-switch effect resets Selection to empty; clearing one set never
clears the other. -/
theorem c2_amended (s : DashState) (indices : List ℕ) (m : Method) :
    (dashStep s (.brush indices)).pinned = s.pinned ∧
    (dashStep s .clearSelection).pinned = s.pinned ∧
    (dashStep s (.setMethod m)).pinned = s.pinned ∧
    (dashStep s (.setMethod m)).selection = [] ∧
    (dashStep s .clearPin).selection = s.selection ∧
    (dashStep s .pin).selection = s.selection :=
  ⟨rfl, rfl, rfl, rfl, rfl, rfl⟩

/-! ## C3 -/

/-- C3 counterexample: the power-iteration computePCA variant also
preprocesses, but drops the partially missing record 1 (age present, BMI
missing) that the claim requires to be kept: its validIndices are [0]
although record 1 is not all-missing; the shared preprocessData keeps it. -/
theorem c3_counterexample :
    powerValidIndices c3data c3feats = [0] ∧
    recordAllMissing (recAt c3data 1) c3feats = false ∧
    preprocValidIndices c3data c3feats = [0, 1] := by
  decide

/-- C3 amended: the shared preprocessData drops exactly the records whose
requested features are all missing and keeps the others as imputed rows,
while the inline preprocessing of the power-iteration computePCA variant
keeps exactly the fully present records; in both, validIndices has the
same length as the matrix and is strictly increasing. -/
theorem c3_amended (data : List Rec) (features : List String) :
    (preprocValidIndices data features).length = (preprocMatrix data features).length ∧
    (preprocValidIndices data features).Pairwise (· < ·) ∧
    (∀ i : ℕ, i ∈ preprocValidIndices data features ↔
      i < data.length ∧ recordAllMissing (recAt data i) features = false) ∧
    preprocMatrix data features =
      (preprocValidIndices data features).map (fun i => imputedRow data features (recAt data i)) ∧
    (powerValidIndices data features).length = (powerMatrixQ data features).length ∧
    (powerValidIndices data features).Pairwise (· < ·) ∧
    (∀ i : ℕ, i ∈ powerValidIndices data features ↔
      i < data.length ∧ rowAllPresent (recAt data i) features = true) := by
  refine ⟨(List.length_map _ _).symm, ?_, ?_, rfl, (List.length_map _ _).symm, ?_, ?_⟩
  · exact (List.pairwise_lt_range _).filter _
  · intro i
    simp [preprocValidIndices, List.mem_filter, List.mem_range, and_comm]
  · exact (List.pairwise_lt_range _).filter _
  · intro i
    simp [powerValidIndices, List.mem_filter, List.mem_range, and_comm]

/-! ## C4 -/

/-- C4: after the standardisation step, every in-range column of the
matrix has mean exactly 0 over the kept rows; a non-constant column has
population variance exactly 1; a constant (zero-variance) column uses
divisor 1 instead of 0 — the divisor is never zero — and becomes uniformly
0 after centering.  (The source computes in floating point, where these
identities hold within rounding; the exact-arithmetic model makes them
exact.) -/
theorem c4_standardization (data : List Rec) (features : List String) (j : ℕ)
    (hM : preprocMatrix data features ≠ []) (hj : j < features.length) :
    rMean (columnOfR (normalizedMatrixR (preprocMatrix data features)) j) = 0 ∧
    stdReal (columnOf (preprocMatrix data features) j) ≠ 0 ∧
    (qVar (columnOf (preprocMatrix data features) j) = 0 →
      stdReal (columnOf (preprocMatrix data features) j) = 1) ∧
    (qVar (columnOf (preprocMatrix data features) j) ≠ 0 →
      rVar (columnOfR (normalizedMatrixR (preprocMatrix data features)) j) = 1) ∧
    (qVar (columnOf (preprocMatrix data features) j) = 0 →
      ∀ y ∈ columnOfR (normalizedMatrixR (preprocMatrix data features)) j, y = 0) := by
  have hrow : ∀ row ∈ preprocMatrix data features, j < row.length := by
    intro row hr
    unfold preprocMatrix at hr
    obtain ⟨i, _, rfl⟩ := List.mem_map.mp hr
    unfold imputedRow
    rw [List.length_map]
    exact hj
  have hcol := columnOfR_normalized (preprocMatrix data features) j hrow
  have hne : columnOf (preprocMatrix data features) j ≠ [] := by
    unfold columnOf
    intro hc
    exact hM (by simpa using hc)
  have hp := normalized_col_props (columnOf (preprocMatrix data features) j) hne
  rw [hcol]
  refine ⟨hp.1, ne_of_gt (stdReal_pos _), ?_, hp.2.1, hp.2.2⟩
  intro hv
  unfold stdReal
  rw [if_pos hv]

/-- C4 witness: the standardisation invariant at the concrete two-record
dataset with x values 1 and 3. -/
theorem c4_standardization_witness :
    preprocMatrix w4data ["x"] ≠ [] ∧ 0 < (["x"] : List String).length ∧
    (rMean (columnOfR (normalizedMatrixR (preprocMatrix w4data ["x"])) 0) = 0 ∧
     stdReal (columnOf (preprocMatrix w4data ["x"]) 0) ≠ 0 ∧
     (qVar (columnOf (preprocMatrix w4data ["x"]) 0) = 0 →
       stdReal (columnOf (preprocMatrix w4data ["x"]) 0) = 1) ∧
     (qVar (columnOf (preprocMatrix w4data ["x"]) 0) ≠ 0 →
       rVar (columnOfR (normalizedMatrixR (preprocMatrix w4data ["x"])) 0) = 1) ∧
     (qVar (columnOf (preprocMatrix w4data ["x"]) 0) = 0 →
       ∀ y ∈ columnOfR (normalizedMatrixR (preprocMatrix w4data ["x"])) 0, y = 0)) := by
  have hne : preprocMatrix w4data ["x"] ≠ [] := by
    simp only [preprocMatrix, preprocValidIndices, recordAllMissing, recAt, w4data]
    intro hc
    have := congrArg List.length hc
    simp [wRecA, List.filter] at this
  exact ⟨hne, by norm_num, c4_standardization w4data ["x"] 0 hne (by norm_num)⟩

/-! ## C5 -/

/-- C5 counterexample: the malformed input (an empty feature-name list, on
a dataset with a present value) does not signal any contract violation —
computePCA silently returns the very same empty no-data result that a
genuinely empty dataset produces, even with a projection backend that is
non-empty on every non-empty input. -/
theorem c5_counterexample :
    computePCAMain constLib [oneRec] [] = ⟨[], []⟩ ∧
    computePCAMain constLib [] ["age"] = ⟨[], []⟩ := by
  constructor <;> rfl

/-- C5 amended: the engine never signals a contract violation: with an
empty feature list every record counts as all-missing, so computePCA
returns the empty projection and empty validIndices — the same normal
no-data result returned whenever zero valid rows survive preprocessing —
for every projection backend. -/
theorem c5_amended :
    (∀ (lib : List (List ℝ) → List (ℝ × ℝ)) (data : List Rec),
      computePCAMain lib data [] = ⟨[], []⟩) ∧
    (∀ (lib : List (List ℝ) → List (ℝ × ℝ)) (data : List Rec) (features : List String),
      preprocMatrix data features = [] → computePCAMain lib data features = ⟨[], []⟩) := by
  constructor
  · intro lib data
    have hv : preprocValidIndices data [] = [] := by
      simp [preprocValidIndices, recordAllMissing]
    simp [computePCAMain, normalizedMatrixR, preprocMatrix, hv]
  · intro lib data features h
    simp [computePCAMain, normalizedMatrixR, h]

/-- C5 witness: the amended theorem applied to the empty dataset, whose
matrix is empty. -/
theorem c5_amended_witness :
    preprocMatrix ([] : List Rec) ["age"] = [] ∧
    computePCAMain constLib [] ["age"] = ⟨[], []⟩ :=
  ⟨rfl, c5_amended.2 constLib [] ["age"] rfl⟩

/-! ## Power-iteration helper lemmas -/

/-- The sums of squares appearing under the square root are nonnegative. -/
theorem sumsq_nonneg {m : ℕ} (w : Fin m → ℝ) : 0 ≤ ∑ i, w i * w i :=
  Finset.sum_nonneg fun _ _ => mul_self_nonneg _

/-- vnorm squared recovers the sum of squares. -/
theorem vnorm_mul_self {m : ℕ} (w : Fin m → ℝ) : vnorm w * vnorm w = ∑ i, w i * w i :=
  Real.mul_self_sqrt (sumsq_nonneg w)

/-- The early-stop threshold of the second power loop is positive. -/
theorem eps10_pos : 0 < eps10 := by
  unfold eps10
  norm_num

/-- Dividing a vector by its nonzero norm produces a unit vector
(exactly, in real arithmetic). -/
theorem normalize_unit {m : ℕ} (w : Fin m → ℝ) (h : vnorm w ≠ 0) :
    ∑ i, (w i / vnorm w) * (w i / vnorm w) = 1 := by
  have hws : (∑ i, w i * w i) ≠ 0 := by
    intro h0
    exact h (by unfold vnorm; rw [h0]; exact Real.sqrt_zero)
  calc ∑ i, (w i / vnorm w) * (w i / vnorm w)
      = ∑ i, (w i * w i) / (vnorm w * vnorm w) :=
        Finset.sum_congr rfl (fun i _ => by rw [div_mul_div_comm])
    _ = (∑ i, w i * w i) / (vnorm w * vnorm w) := by rw [Finset.sum_div]
    _ = 1 := by rw [vnorm_mul_self]; exact div_self hws

/-- The re-orthogonalised and renormalised candidate of the second power
loop is a unit vector orthogonal to pc1, provided pc1 is unit and the
renormalisation norm is nonzero. -/
theorem ortho_branch {m : ℕ} (p w : Fin m → ℝ) (hp : ∑ i, p i * p i = 1)
    (hn : vnorm (fun i => w i - dotv w p * p i) ≠ 0) :
    (∑ i, ((w i - dotv w p * p i) / vnorm (fun k => w k - dotv w p * p k)) *
        ((w i - dotv w p * p i) / vnorm (fun k => w k - dotv w p * p k)) = 1) ∧
    (∑ i, p i * ((w i - dotv w p * p i) / vnorm (fun k => w k - dotv w p * p k)) = 0) := by
  constructor
  · exact normalize_unit _ hn
  · have key : ∑ i, p i * (w i - dotv w p * p i) = 0 := by
      have expand : ∀ i : Fin m, p i * (w i - dotv w p * p i) =
          p i * w i - dotv w p * (p i * p i) := fun i => by ring
      rw [Finset.sum_congr rfl (fun i _ => expand i), Finset.sum_sub_distrib,
        ← Finset.mul_sum, hp, mul_one]
      have hcomm : ∑ i, p i * w i = ∑ i, w i * p i :=
        Finset.sum_congr rfl fun i _ => mul_comm _ _
      rw [hcomm]
      unfold dotv
      rw [sub_self]
    calc ∑ i, p i * ((w i - dotv w p * p i) / vnorm (fun k => w k - dotv w p * p k))
        = ∑ i, (p i * (w i - dotv w p * p i)) / vnorm (fun k => w k - dotv w p * p k) :=
          Finset.sum_congr rfl (fun i _ => by rw [mul_div_assoc])
      _ = (∑ i, p i * (w i - dotv w p * p i)) / vnorm (fun k => w k - dotv w p * p k) := by
          rw [Finset.sum_div]
      _ = 0 := by rw [key, zero_div]

/-- One step of the second power loop preserves the orthonormality
invariant of the candidate vector, whatever branch is taken. -/
theorem pc2Step_preserves {m : ℕ} (R : Fin m → Fin m → ℝ) (p : Fin m → ℝ)
    (hp : dotv p p = 1) (s : (Fin m → ℝ) × Bool)
    (hs : dotv s.1 s.1 = 1 ∧ dotv p s.1 = 0) :
    dotv (pc2Step R p s).1 (pc2Step R p s).1 = 1 ∧
    dotv p (pc2Step R p s).1 = 0 := by
  by_cases hstop : s.2
  · unfold pc2Step
    rw [if_pos hstop]
    exact hs
  · by_cases hbreak : vnorm (fun i => matVec R s.1 i - dotv (matVec R s.1) p * p i) < eps10
    · unfold pc2Step
      rw [if_neg hstop, if_pos hbreak]
      exact hs
    · have hn : vnorm (fun i => matVec R s.1 i - dotv (matVec R s.1) p * p i) ≠ 0 := by
        intro h0
        rw [h0] at hbreak
        exact hbreak eps10_pos
      have ho := ortho_branch p (matVec R s.1) (by unfold dotv at hp; exact hp) hn
      have hres : pc2Step R p s =
          ((fun i => (matVec R s.1 i - dotv (matVec R s.1) p * p i) /
            vnorm (fun k => matVec R s.1 k - dotv (matVec R s.1) p * p k)), false) := by
        unfold pc2Step
        rw [if_neg hstop, if_neg hbreak]
      rw [hres]
      exact ⟨ho.1, ho.2⟩

/-- On a running (not stopped) state whose candidate does not trigger the
early stop, the second power loop renormalises the orthogonalised image. -/
theorem pc2Step_false {m : ℕ} (R : Fin m → Fin m → ℝ) (p v : Fin m → ℝ)
    (hbr : ¬ vnorm (fun i => matVec R v i - dotv (matVec R v) p * p i) < eps10) :
    pc2Step R p (v, false) =
      ((fun i => (matVec R v i - dotv (matVec R v) p * p i) /
        vnorm (fun k => matVec R v k - dotv (matVec R v) p * p k)), false) := by
  unfold pc2Step
  rw [if_neg (by simp), if_neg hbr]

/-- The orthonormality invariant survives any number of iterations of the
second power loop. -/
theorem pc2Step_iterate {m : ℕ} (R : Fin m → Fin m → ℝ) (p : Fin m → ℝ)
    (hp : dotv p p = 1) (k : ℕ) (s : (Fin m → ℝ) × Bool)
    (hs : dotv s.1 s.1 = 1 ∧ dotv p s.1 = 0) :
    dotv ((pc2Step R p)^[k] s).1 ((pc2Step R p)^[k] s).1 = 1 ∧
    dotv p ((pc2Step R p)^[k] s).1 = 0 := by
  induction k generalizing s with
  | zero => simpa using hs
  | succ n ih =>
      rw [Function.iterate_succ_apply]
      exact ih _ (pc2Step_preserves R p hp s hs)

/-! ## C6 -/

/-- C6 amended: the two axes of the power-iteration PCA are exactly
orthonormal in real arithmetic — v1 dot v1 = 1, v2 dot v2 = 1, v1 dot v2
= 0 — provided the final renormalisation of the first loop has nonzero
norm and the first iteration of the second loop does not take the
early-stop branch.  (Without the first proviso the first axis degenerates
to the zero vector — NaN in the floating-point original — as the
counterexample shows; without the second the seed [0, 1, 0, ...] is kept,
which need not be orthogonal to v1.) -/
theorem c6_pca_axes_orthonormal (m : ℕ) (C : Fin m → Fin m → ℝ)
    (h1 : vnorm (matVec C ((powerStep C)^[49] (e1v m))) ≠ 0)
    (h2 : ¬ vnorm (fun i => matVec (residualC C) (e2v m) i -
      dotv (matVec (residualC C) (e2v m)) (pc1Final C) * pc1Final C i) < eps10) :
    dotv (pc1Final C) (pc1Final C) = 1 ∧
    dotv (pc2Final C) (pc2Final C) = 1 ∧
    dotv (pc1Final C) (pc2Final C) = 0 := by
  have hpc1 : pc1Final C = powerStep C ((powerStep C)^[49] (e1v m)) := by
    unfold pc1Final
    exact Function.iterate_succ_apply' (powerStep C) 49 (e1v m)
  have hu1 : dotv (pc1Final C) (pc1Final C) = 1 := by
    rw [hpc1]
    unfold powerStep dotv
    exact normalize_unit _ h1
  have hn0 : vnorm (fun i => matVec (residualC C) (e2v m) i -
      dotv (matVec (residualC C) (e2v m)) (pc1Final C) * pc1Final C i) ≠ 0 := by
    intro h0
    rw [h0] at h2
    exact h2 eps10_pos
  have hstep0 : pc2Step (residualC C) (pc1Final C) (e2v m, false) =
      ((fun i => (matVec (residualC C) (e2v m) i -
          dotv (matVec (residualC C) (e2v m)) (pc1Final C) * pc1Final C i) /
        vnorm (fun k => matVec (residualC C) (e2v m) k -
          dotv (matVec (residualC C) (e2v m)) (pc1Final C) * pc1Final C k)), false) := by
    unfold pc2Step
    rw [if_neg (by simp), if_neg h2]
  have ho := ortho_branch (pc1Final C) (matVec (residualC C) (e2v m))
    (by unfold dotv at hu1; exact hu1) hn0
  have hInv1 : dotv (pc2Step (residualC C) (pc1Final C) (e2v m, false)).1
        (pc2Step (residualC C) (pc1Final C) (e2v m, false)).1 = 1 ∧
      dotv (pc1Final C) (pc2Step (residualC C) (pc1Final C) (e2v m, false)).1 = 0 := by
    rw [hstep0]
    exact ⟨ho.1, ho.2⟩
  have hpc2 : pc2Final C =
      ((pc2Step (residualC C) (pc1Final C))^[99]
        (pc2Step (residualC C) (pc1Final C) (e2v m, false))).1 := by
    unfold pc2Final
    rw [Function.iterate_succ_apply]
  obtain ⟨ha, hb⟩ := pc2Step_iterate (residualC C) (pc1Final C) hu1 99 _ hInv1
  exact ⟨hu1, by rw [hpc2]; exact ha, by rw [hpc2]; exact hb⟩

/-! ## Concrete spectral computations -/

/-- The identity covariance maps the first seed to itself. -/
theorem idC_matVec_e1 : matVec idC (e1v 2) = e1v 2 := by
  funext i
  unfold matVec idC e1v
  rw [Fin.sum_univ_two]
  fin_cases i <;> simp

/-- The first seed has unit norm. -/
theorem vnorm_e1 : vnorm (e1v 2) = 1 := by
  unfold vnorm e1v
  rw [Fin.sum_univ_two]
  norm_num

/-- The second seed has unit norm. -/
theorem vnorm_e2 : vnorm (e2v 2) = 1 := by
  unfold vnorm e2v
  rw [Fin.sum_univ_two]
  norm_num

/-- The first power step fixes the seed on the identity covariance. -/
theorem idC_powerStep_e1 : powerStep idC (e1v 2) = e1v 2 := by
  funext i
  unfold powerStep
  rw [idC_matVec_e1, vnorm_e1, div_one]

/-- The first axis on the identity covariance is the seed itself. -/
theorem idC_pc1 : pc1Final idC = e1v 2 := by
  unfold pc1Final
  exact Function.iterate_fixed idC_powerStep_e1 50

/-- The first eigenvalue estimate on the identity covariance. -/
theorem idC_lambda1 : lambda1C idC = 1 := by
  unfold lambda1C rayleighQ
  rw [idC_pc1]
  simp [Fin.sum_univ_two, idC, e1v]

/-- The deflated identity covariance maps the second seed to itself. -/
theorem idC_resid_e2 : matVec (residualC idC) (e2v 2) = e2v 2 := by
  funext i
  unfold matVec residualC
  rw [idC_lambda1, idC_pc1, Fin.sum_univ_two]
  fin_cases i <;> simp [idC, e1v, e2v]

/-- The two seeds are orthogonal. -/
theorem dotv_e2_e1 : dotv (e2v 2) (e1v 2) = 0 := by
  unfold dotv e1v e2v
  rw [Fin.sum_univ_two]
  norm_num

/-- C6 witness: the amended orthonormality theorem applied to the identity
covariance of two uncorrelated standardised columns, where both provisos
hold. -/
theorem c6_pca_axes_orthonormal_witness :
    (vnorm (matVec idC ((powerStep idC)^[49] (e1v 2))) ≠ 0) ∧
    (¬ vnorm (fun i => matVec (residualC idC) (e2v 2) i -
      dotv (matVec (residualC idC) (e2v 2)) (pc1Final idC) * pc1Final idC i) < eps10) ∧
    (dotv (pc1Final idC) (pc1Final idC) = 1 ∧
     dotv (pc2Final idC) (pc2Final idC) = 1 ∧
     dotv (pc1Final idC) (pc2Final idC) = 0) := by
  have h49 : (powerStep idC)^[49] (e1v 2) = e1v 2 :=
    Function.iterate_fixed idC_powerStep_e1 49
  have h1 : vnorm (matVec idC ((powerStep idC)^[49] (e1v 2))) ≠ 0 := by
    rw [h49, idC_matVec_e1, vnorm_e1]
    norm_num
  have hvec : (fun i => matVec (residualC idC) (e2v 2) i -
      dotv (matVec (residualC idC) (e2v 2)) (pc1Final idC) * pc1Final idC i) = e2v 2 := by
    funext i
    rw [idC_resid_e2, idC_pc1, dotv_e2_e1]
    ring
  have h2 : ¬ vnorm (fun i => matVec (residualC idC) (e2v 2) i -
      dotv (matVec (residualC idC) (e2v 2)) (pc1Final idC) * pc1Final idC i) < eps10 := by
    rw [hvec, vnorm_e2]
    unfold eps10
    norm_num
  exact ⟨h1, h2, c6_pca_axes_orthonormal 2 idC h1 h2⟩

/-- Any power step fixes the zero vector: the zero image renormalises to
zero under the division convention (NaN in the floating-point original). -/
theorem powerStep_zero_fix {m : ℕ} (C : Fin m → Fin m → ℝ) :
    powerStep C (fun _ => 0) = (fun _ => 0) := by
  funext i
  unfold powerStep matVec vnorm
  simp

/-- The covariance of the degenerate standardised matrix n6. -/
theorem covOfR_n6 : covOfR n6 2 = cC6 := by
  funext i j
  fin_cases i <;> fin_cases j <;> simp [covOfR, n6, cC6]

/-- The degenerate covariance sends the first seed to zero. -/
theorem cC6_matVec_e1 : matVec cC6 (e1v 2) = (fun _ => 0) := by
  funext i
  unfold matVec cC6 e1v
  rw [Fin.sum_univ_two]
  fin_cases i <;> simp

/-- The first power step collapses the seed to the zero vector on the
degenerate covariance. -/
theorem cC6_powerStep_e1 : powerStep cC6 (e1v 2) = (fun _ => 0) := by
  funext i
  unfold powerStep
  rw [cC6_matVec_e1]
  unfold vnorm
  simp

/-! ## C6 counterexample -/

/-- C6 counterexample: a dataset with a constant feature yields a
standardised matrix with a zero column and a covariance with a zero first
row; the first power loop runs all 50 iterations to completion, yet its
renormalisation divides zero by zero, so the returned first axis is the
zero vector (NaN coordinates in the floating-point original) — v1 dot v1
is 0, not approximately 1. -/
theorem c6_counterexample :
    powerNormalizedR c6data c6feats = n6 ∧
    pc1Final (covOfR (powerNormalizedR c6data c6feats) 2) = (fun _ => 0) ∧
    dotv (pc1Final (covOfR (powerNormalizedR c6data c6feats) 2))
      (pc1Final (covOfR (powerNormalizedR c6data c6feats) 2)) = 0 ∧
    dotv (pc1Final (covOfR (powerNormalizedR c6data c6feats) 2))
      (pc1Final (covOfR (powerNormalizedR c6data c6feats) 2)) ≠ 1 := by
  have hM : powerMatrixQ c6data c6feats = [[5, 1], [5, 3]] := by decide
  have hcol0 : columnOf [[5, 1], [5, 3]] 0 = [5, 5] := by decide
  have hcol1 : columnOf [[5, 1], [5, 3]] 1 = [1, 3] := by decide
  have hm0 : qMean [(5 : ℚ), 5] = 5 := by norm_num [qMean]
  have hv0 : qVar [(5 : ℚ), 5] = 0 := by norm_num [qVar, qMean]
  have hm1 : qMean [(1 : ℚ), 3] = 2 := by norm_num [qMean]
  have hv1 : qVar [(1 : ℚ), 3] = 1 := by norm_num [qVar, qMean]
  have hs0 : stdReal [(5 : ℚ), 5] = 1 := by
    unfold stdReal
    rw [if_pos hv0]
  have hs1 : stdReal [(1 : ℚ), 3] = 1 := by
    unfold stdReal
    rw [if_neg (by rw [hv1]; norm_num), hv1]
    simp
  have hN : powerNormalizedR c6data c6feats = n6 := by
    unfold powerNormalizedR
    rw [hM]
    unfold normalizedMatrixR
    simp only [List.map_cons, List.map_nil, List.mapIdx_cons, List.mapIdx_nil,
      hcol0, hcol1, normEntry, hm0, hm1, hs0, hs1, n6]
    norm_num
  have hfix : pc1Final cC6 = (fun _ => 0) := by
    unfold pc1Final
    have h50 : (powerStep cC6)^[50] (e1v 2) =
        (powerStep cC6)^[49] (powerStep cC6 (e1v 2)) :=
      Function.iterate_succ_apply (powerStep cC6) 49 (e1v 2)
    rw [h50, cC6_powerStep_e1]
    exact Function.iterate_fixed (powerStep_zero_fix cC6) 49
  have hpc1 : pc1Final (covOfR (powerNormalizedR c6data c6feats) 2) = (fun _ => 0) := by
    rw [hN, covOfR_n6, hfix]
  refine ⟨hN, hpc1, ?_, ?_⟩
  · rw [hpc1]
    unfold dotv
    simp
  · rw [hpc1]
    unfold dotv
    simp

/-! ## Rayleigh-quotient helper lemmas -/

/-- A finite sum of list sums is the list sum of the finite sums. -/
theorem finsum_listsum_swap {ι α : Type} (s : Finset ι) (l : List α) (g : ι → α → ℝ) :
    ∑ i in s, (l.map (g i)).sum = (l.map (fun x => ∑ i in s, g i x)).sum := by
  induction l with
  | nil => simp
  | cons a t ih => simp [List.map_cons, List.sum_cons, Finset.sum_add_distrib, ih]

/-- A constant multiplies into a mapped list sum. -/
theorem listsum_mul_right {α : Type} (l : List α) (f : α → ℝ) (c : ℝ) :
    (l.map f).sum * c = (l.map (fun x => f x * c)).sum := by
  induction l with
  | nil => simp
  | cons a t ih => simp [List.map_cons, List.sum_cons, add_mul, ih]

/-- The Rayleigh quotient of the sample covariance is the mean of the
squared row projections onto v. -/
theorem rayleigh_cov (N : List (List ℝ)) (m : ℕ) (v : Fin m → ℝ) :
    rayleighQ (covOfR N m) v =
      (N.map (fun r => (∑ i, r.getD i 0 * v i) ^ 2)).sum / (N.length : ℝ) := by
  unfold rayleighQ covOfR
  calc
    ∑ i : Fin m, ∑ j : Fin m,
        (N.map (fun r => r.getD i 0 * r.getD j 0)).sum / (N.length : ℝ) * v i * v j
      = ∑ i : Fin m, ∑ j : Fin m,
          (N.map (fun r => r.getD i 0 * v i * (r.getD j 0 * v j))).sum / (N.length : ℝ) := by
        refine Finset.sum_congr rfl fun i _ => Finset.sum_congr rfl fun j _ => ?_
        rw [div_mul_eq_mul_div, div_mul_eq_mul_div, listsum_mul_right, listsum_mul_right]
        congr 1
        refine congrArg List.sum (List.map_congr_left fun r _ => ?_)
        ring
    _ = (∑ i : Fin m, ∑ j : Fin m,
          (N.map (fun r => r.getD i 0 * v i * (r.getD j 0 * v j))).sum) / (N.length : ℝ) := by
        simp only [← Finset.sum_div]
    _ = (N.map (fun r => ∑ i : Fin m, ∑ j : Fin m,
          r.getD i 0 * v i * (r.getD j 0 * v j))).sum / (N.length : ℝ) := by
        congr 1
        rw [Finset.sum_congr rfl fun (i : Fin m) (_ : i ∈ (Finset.univ : Finset (Fin m))) =>
          finsum_listsum_swap Finset.univ N
            (fun (j : Fin m) (r : List ℝ) => r.getD i 0 * v i * (r.getD j 0 * v j))]
        exact finsum_listsum_swap Finset.univ N
          (fun (i : Fin m) (r : List ℝ) => ∑ j : Fin m, r.getD i 0 * v i * (r.getD j 0 * v j))
    _ = (N.map (fun r => (∑ i, r.getD i 0 * v i) ^ 2)).sum / (N.length : ℝ) := by
        congr 1
        refine congrArg List.sum (List.map_congr_left fun r _ => ?_)
        rw [sq, Finset.sum_mul_sum]

/-- The trace of the sample covariance is the mean of the squared row
norms. -/
theorem trace_cov (N : List (List ℝ)) (m : ℕ) :
    traceC (covOfR N m) =
      (N.map (fun r => ∑ i : Fin m, r.getD i 0 * r.getD i 0)).sum / (N.length : ℝ) := by
  unfold traceC covOfR
  rw [← Finset.sum_div]
  congr 1
  exact finsum_listsum_swap Finset.univ N
    (fun (i : Fin m) (r : List ℝ) => r.getD i 0 * r.getD i 0)

/-- The Rayleigh quotient of the sample covariance is nonnegative for
every vector. -/
theorem rayleigh_nonneg (N : List (List ℝ)) (m : ℕ) (v : Fin m → ℝ) :
    0 ≤ rayleighQ (covOfR N m) v := by
  rw [rayleigh_cov]
  apply div_nonneg
  · apply List.sum_nonneg
    intro x hx
    obtain ⟨r, _, rfl⟩ := List.mem_map.mp hx
    exact sq_nonneg _
  · exact Nat.cast_nonneg _

/-- The Rayleigh quotient of a unit vector against the sample covariance
is at most the trace (Cauchy-Schwarz, row by row). -/
theorem rayleigh_le_trace (N : List (List ℝ)) (m : ℕ) (v : Fin m → ℝ)
    (hv : dotv v v = 1) :
    rayleighQ (covOfR N m) v ≤ traceC (covOfR N m) := by
  rw [rayleigh_cov, trace_cov]
  rcases Nat.eq_zero_or_pos N.length with h0 | hpos
  · rw [h0]
    simp
  · rw [div_le_div_iff_of_pos_right]
    · apply List.sum_le_sum
      intro r _
      have hcs := Finset.sum_mul_sq_le_sq_mul_sq Finset.univ
        (fun (i : Fin m) => r.getD i 0) v
      have hv2 : ∑ i, v i ^ 2 = 1 := by
        have he : ∑ i, v i ^ 2 = ∑ i, v i * v i :=
          Finset.sum_congr rfl fun i _ => by rw [sq]
        rw [he]
        exact hv
      have hr2 : ∑ i : Fin m, r.getD i 0 ^ 2 = ∑ i : Fin m, r.getD i 0 * r.getD i 0 :=
        Finset.sum_congr rfl fun i _ => by rw [sq]
      calc (∑ i : Fin m, r.getD i 0 * v i) ^ 2
          ≤ (∑ i : Fin m, r.getD i 0 ^ 2) * (∑ i, v i ^ 2) := hcs
        _ = ∑ i : Fin m, r.getD i 0 * r.getD i 0 := by rw [hv2, mul_one, ← hr2]
    · exact_mod_cast hpos

/-! ## C7 -/

/-- C7 amended: the variance-explained outputs are the Rayleigh quotients
of the returned axes against C, divided by trace(C) and scaled by 100;
whenever the two axes are unit vectors and the trace is positive, both
outputs lie in [0, 100].  The ordering varianceExplained[0] >=
varianceExplained[1] claimed by the spec does not hold in general (see the
counterexample, where the seed e1 is an exact eigenvector of a
non-dominant eigenvalue). -/
theorem c7_variance_bounds (N : List (List ℝ)) (m : ℕ)
    (h1 : dotv (pc1Final (covOfR N m)) (pc1Final (covOfR N m)) = 1)
    (h2 : dotv (pc2Final (covOfR N m)) (pc2Final (covOfR N m)) = 1)
    (ht : 0 < traceC (covOfR N m)) :
    0 ≤ varExplained1 (covOfR N m) ∧ varExplained1 (covOfR N m) ≤ 100 ∧
    0 ≤ varExplained2 (covOfR N m) ∧ varExplained2 (covOfR N m) ≤ 100 := by
  have b1 := rayleigh_nonneg N m (pc1Final (covOfR N m))
  have b2 := rayleigh_nonneg N m (pc2Final (covOfR N m))
  have u1 := rayleigh_le_trace N m (pc1Final (covOfR N m)) h1
  have u2 := rayleigh_le_trace N m (pc2Final (covOfR N m)) h2
  unfold varExplained1 varExplained2 lambda1C lambda2C
  refine ⟨?_, ?_, ?_, ?_⟩
  · exact mul_nonneg (div_nonneg b1 ht.le) (by norm_num)
  · have hone : rayleighQ (covOfR N m) (pc1Final (covOfR N m)) / traceC (covOfR N m) ≤ 1 :=
      (div_le_one ht).mpr u1
    nlinarith
  · exact mul_nonneg (div_nonneg b2 ht.le) (by norm_num)
  · have hone : rayleighQ (covOfR N m) (pc2Final (covOfR N m)) / traceC (covOfR N m) ≤ 1 :=
      (div_le_one ht).mpr u2
    nlinarith

/-- The covariance of the orthogonal unit-variance matrix n4 is the
identity. -/
theorem covOfR_n4 : covOfR n4 2 = idC := by
  funext i j
  fin_cases i <;> fin_cases j <;> simp [covOfR, n4, idC] <;> norm_num

/-- The seeds are unit vectors under dotv. -/
theorem dotv_e1_e1 : dotv (e1v 2) (e1v 2) = 1 := by
  unfold dotv e1v
  rw [Fin.sum_univ_two]
  norm_num

/-- The second seed is a unit vector under dotv. -/
theorem dotv_e2_e2 : dotv (e2v 2) (e2v 2) = 1 := by
  unfold dotv e2v
  rw [Fin.sum_univ_two]
  norm_num

/-- The second power loop fixes the second seed on the identity
covariance. -/
theorem idC_pc2Step_fix :
    pc2Step (residualC idC) (pc1Final idC) (e2v 2, false) = (e2v 2, false) := by
  have hvec : (fun i => matVec (residualC idC) (e2v 2) i -
      dotv (matVec (residualC idC) (e2v 2)) (pc1Final idC) * pc1Final idC i) = e2v 2 := by
    funext i
    rw [idC_resid_e2, idC_pc1, dotv_e2_e1]
    ring
  have hbr : ¬ vnorm (fun i => matVec (residualC idC) (e2v 2) i -
      dotv (matVec (residualC idC) (e2v 2)) (pc1Final idC) * pc1Final idC i) < eps10 := by
    rw [hvec, vnorm_e2]
    unfold eps10
    norm_num
  rw [pc2Step_false (residualC idC) (pc1Final idC) (e2v 2) hbr]
  simp only [Prod.mk.injEq]
  refine ⟨funext fun i => ?_, trivial⟩
  have hnum := congrFun hvec i
  simp only [] at hnum
  rw [hnum, hvec, vnorm_e2, div_one]

/-- The second axis on the identity covariance is the second seed. -/
theorem idC_pc2 : pc2Final idC = e2v 2 := by
  unfold pc2Final
  rw [Function.iterate_fixed idC_pc2Step_fix 100]

/-- The trace of the identity covariance on two features. -/
theorem idC_trace : traceC idC = 2 := by
  unfold traceC idC
  rw [Fin.sum_univ_two]
  norm_num

/-- C7 witness: the amended bounds at the concrete identity covariance of
n4, where both axes are exactly the seeds. -/
theorem c7_variance_bounds_witness :
    dotv (pc1Final (covOfR n4 2)) (pc1Final (covOfR n4 2)) = 1 ∧
    dotv (pc2Final (covOfR n4 2)) (pc2Final (covOfR n4 2)) = 1 ∧
    0 < traceC (covOfR n4 2) ∧
    (0 ≤ varExplained1 (covOfR n4 2) ∧ varExplained1 (covOfR n4 2) ≤ 100 ∧
     0 ≤ varExplained2 (covOfR n4 2) ∧ varExplained2 (covOfR n4 2) ≤ 100) := by
  have h1 : dotv (pc1Final (covOfR n4 2)) (pc1Final (covOfR n4 2)) = 1 := by
    rw [covOfR_n4, idC_pc1]
    exact dotv_e1_e1
  have h2 : dotv (pc2Final (covOfR n4 2)) (pc2Final (covOfR n4 2)) = 1 := by
    rw [covOfR_n4, idC_pc2]
    exact dotv_e2_e2
  have ht : 0 < traceC (covOfR n4 2) := by
    rw [covOfR_n4, idC_trace]
    norm_num
  exact ⟨h1, h2, ht, c7_variance_bounds n4 2 h1 h2 ht⟩

/-! ## C7 counterexample -/

/-- The covariance of the standardised matrix n7. -/
theorem covOfR_n7 : covOfR n7 3 = cC7 := by
  funext i j
  fin_cases i <;> fin_cases j <;> simp [covOfR, n7, cC7] <;> norm_num

/-- The covariance cC7 fixes the first seed: e1 is an exact eigenvector
of the non-dominant eigenvalue 1. -/
theorem cC7_matVec_e1 : matVec cC7 (e1v 3) = e1v 3 := by
  funext i
  unfold matVec cC7 e1v
  rw [Fin.sum_univ_three]
  fin_cases i <;> simp

/-- The first seed has unit norm in three dimensions. -/
theorem vnorm_e1_3 : vnorm (e1v 3) = 1 := by
  unfold vnorm e1v
  rw [Fin.sum_univ_three]
  norm_num

/-- The first power step fixes the seed on cC7. -/
theorem cC7_powerStep_e1 : powerStep cC7 (e1v 3) = e1v 3 := by
  funext i
  unfold powerStep
  rw [cC7_matVec_e1, vnorm_e1_3, div_one]

/-- The first axis on cC7 is stuck at the seed. -/
theorem cC7_pc1 : pc1Final cC7 = e1v 3 := by
  unfold pc1Final
  exact Function.iterate_fixed cC7_powerStep_e1 50

/-- The first eigenvalue estimate on cC7 is the non-dominant 1. -/
theorem cC7_lambda1 : lambda1C cC7 = 1 := by
  unfold lambda1C rayleighQ
  rw [cC7_pc1]
  simp [Fin.sum_univ_three, cC7, e1v]

/-- The deflated cC7 sends the second seed to the indicator of the
correlated block. -/
theorem cC7_res_e2 : matVec (residualC cC7) (e2v 3) =
    (fun i : Fin 3 => if (i : ℕ) = 0 then (0 : ℝ) else 1) := by
  funext i
  unfold matVec residualC
  rw [cC7_lambda1, cC7_pc1, Fin.sum_univ_three]
  fin_cases i <;> simp [cC7, e1v, e2v]

/-- The square root of two is at least one. -/
theorem one_le_sqrt2 : (1 : ℝ) ≤ Real.sqrt 2 := by
  rw [show (1 : ℝ) = Real.sqrt 1 by simp]
  exact Real.sqrt_le_sqrt (by norm_num)

/-- The square root of two is positive. -/
theorem sqrt2_pos : (0 : ℝ) < Real.sqrt 2 := lt_of_lt_of_le one_pos one_le_sqrt2

/-- The norm of the correlated-block indicator. -/
theorem vnorm_w7a : vnorm (fun i : Fin 3 => if (i : ℕ) = 0 then (0 : ℝ) else 1) =
    Real.sqrt 2 := by
  unfold vnorm
  rw [Fin.sum_univ_three]
  norm_num

/-- The norm of sqrt 2 times the correlated-block indicator. -/
theorem vnorm_w7b : vnorm (fun i : Fin 3 => if (i : ℕ) = 0 then (0 : ℝ) else Real.sqrt 2) =
    2 := by
  have h2 : Real.sqrt 2 * Real.sqrt 2 = 2 := Real.mul_self_sqrt (by norm_num)
  unfold vnorm
  rw [Fin.sum_univ_three]
  norm_num
  rw [show (4 : ℝ) = 2 ^ 2 by norm_num, Real.sqrt_sq (by norm_num)]

/-- The first iteration of the second loop on cC7 renormalises the block
indicator to v7. -/
theorem cC7_pc2_step1 :
    pc2Step (residualC cC7) (pc1Final cC7) (e2v 3, false) = (v7, false) := by
  have h2 : Real.sqrt 2 * Real.sqrt 2 = 2 := Real.mul_self_sqrt (by norm_num)
  have hd : dotv (fun i : Fin 3 => if (i : ℕ) = 0 then (0 : ℝ) else 1) (pc1Final cC7) = 0 := by
    rw [cC7_pc1]
    unfold dotv e1v
    rw [Fin.sum_univ_three]
    norm_num
  have hvec : (fun i => matVec (residualC cC7) (e2v 3) i -
      dotv (matVec (residualC cC7) (e2v 3)) (pc1Final cC7) * pc1Final cC7 i) =
      (fun i : Fin 3 => if (i : ℕ) = 0 then (0 : ℝ) else 1) := by
    funext i
    rw [cC7_res_e2, hd]
    ring
  have hbr : ¬ vnorm (fun i => matVec (residualC cC7) (e2v 3) i -
      dotv (matVec (residualC cC7) (e2v 3)) (pc1Final cC7) * pc1Final cC7 i) < eps10 := by
    rw [hvec, vnorm_w7a]
    push_neg
    calc eps10 ≤ 1 := by unfold eps10; norm_num
      _ ≤ Real.sqrt 2 := one_le_sqrt2
  rw [pc2Step_false (residualC cC7) (pc1Final cC7) (e2v 3) hbr]
  simp only [Prod.mk.injEq]
  refine ⟨funext fun i => ?_, trivial⟩
  have hnum := congrFun hvec i
  simp only [] at hnum
  rw [hnum, hvec, vnorm_w7a]
  unfold v7
  by_cases hi : (i : ℕ) = 0
  · rw [if_pos hi, if_pos hi, zero_div]
  · rw [if_neg hi, if_neg hi]
    rw [div_eq_div_iff (ne_of_gt sqrt2_pos) (by norm_num : (2 : ℝ) ≠ 0)]
    linarith [h2]

/-- The deflated cC7 maps v7 to sqrt 2 times the block indicator. -/
theorem cC7_res_v7 : matVec (residualC cC7) v7 =
    (fun i : Fin 3 => if (i : ℕ) = 0 then (0 : ℝ) else Real.sqrt 2) := by
  have h2 : Real.sqrt 2 * Real.sqrt 2 = 2 := Real.mul_self_sqrt (by norm_num)
  funext i
  unfold matVec residualC v7
  rw [cC7_lambda1, cC7_pc1, Fin.sum_univ_three]
  fin_cases i <;> simp [cC7, e1v]

/-- The second loop fixes v7 on cC7. -/
theorem cC7_pc2_fix :
    pc2Step (residualC cC7) (pc1Final cC7) (v7, false) = (v7, false) := by
  have hd : dotv (fun i : Fin 3 => if (i : ℕ) = 0 then (0 : ℝ) else Real.sqrt 2)
      (pc1Final cC7) = 0 := by
    rw [cC7_pc1]
    unfold dotv e1v
    rw [Fin.sum_univ_three]
    norm_num
  have hvec : (fun i => matVec (residualC cC7) v7 i -
      dotv (matVec (residualC cC7) v7) (pc1Final cC7) * pc1Final cC7 i) =
      (fun i : Fin 3 => if (i : ℕ) = 0 then (0 : ℝ) else Real.sqrt 2) := by
    funext i
    rw [cC7_res_v7, hd]
    ring
  have hbr : ¬ vnorm (fun i => matVec (residualC cC7) v7 i -
      dotv (matVec (residualC cC7) v7) (pc1Final cC7) * pc1Final cC7 i) < eps10 := by
    rw [hvec, vnorm_w7b]
    push_neg
    calc eps10 ≤ 1 := by unfold eps10; norm_num
      _ ≤ 2 := by norm_num
  rw [pc2Step_false (residualC cC7) (pc1Final cC7) v7 hbr]
  simp only [Prod.mk.injEq]
  refine ⟨funext fun i => ?_, trivial⟩
  have hnum := congrFun hvec i
  simp only [] at hnum
  rw [hnum, hvec, vnorm_w7b]
  unfold v7
  by_cases hi : (i : ℕ) = 0
  · rw [if_pos hi, if_pos hi, zero_div]
  · rw [if_neg hi, if_neg hi]

/-- The second axis on cC7. -/
theorem cC7_pc2 : pc2Final cC7 = v7 := by
  unfold pc2Final
  have h100 : (pc2Step (residualC cC7) (pc1Final cC7))^[100] (e2v 3, false) =
      (pc2Step (residualC cC7) (pc1Final cC7))^[99]
        (pc2Step (residualC cC7) (pc1Final cC7) (e2v 3, false)) :=
    Function.iterate_succ_apply _ 99 _
  rw [h100, cC7_pc2_step1, Function.iterate_fixed cC7_pc2_fix 99]

/-- The second eigenvalue estimate on cC7 is the dominant 2. -/
theorem cC7_lambda2 : lambda2C cC7 = 2 := by
  have h2 : Real.sqrt 2 * Real.sqrt 2 = 2 := Real.mul_self_sqrt (by norm_num)
  unfold lambda2C rayleighQ
  rw [cC7_pc2]
  unfold cC7 v7
  simp [Fin.sum_univ_three]
  nlinarith [h2]

/-- The trace of cC7. -/
theorem cC7_trace : traceC cC7 = 3 := by
  unfold traceC cC7
  rw [Fin.sum_univ_three]
  norm_num

/-- C7 counterexample: on the dataset whose standardised matrix is n7,
the power-iteration seed e1 is an exact eigenvector of the non-dominant
eigenvalue, so the engine reports varianceExplained = [100/3, 200/3]:
the first component is strictly smaller than the second, refuting
varianceExplained[0] >= varianceExplained[1]. -/
theorem c7_counterexample :
    powerNormalizedR c7data c7feats = n7 ∧
    varExplained1 (covOfR (powerNormalizedR c7data c7feats) 3) = 100 / 3 ∧
    varExplained2 (covOfR (powerNormalizedR c7data c7feats) 3) = 200 / 3 ∧
    varExplained1 (covOfR (powerNormalizedR c7data c7feats) 3) <
      varExplained2 (covOfR (powerNormalizedR c7data c7feats) 3) := by
  have hM : powerMatrixQ c7data c7feats =
      [[1, 1, 1], [1, -1, -1], [-1, 1, 1], [-1, -1, -1]] := by decide
  have hcol0 : columnOf [[1, 1, 1], [1, -1, -1], [-1, 1, 1], [-1, -1, -1]] 0 =
      [(1 : ℚ), 1, -1, -1] := by decide
  have hcol1 : columnOf [[1, 1, 1], [1, -1, -1], [-1, 1, 1], [-1, -1, -1]] 1 =
      [(1 : ℚ), -1, 1, -1] := by decide
  have hcol2 : columnOf [[1, 1, 1], [1, -1, -1], [-1, 1, 1], [-1, -1, -1]] 2 =
      [(1 : ℚ), -1, 1, -1] := by decide
  have hm0 : qMean [(1 : ℚ), 1, -1, -1] = 0 := by norm_num [qMean]
  have hm1 : qMean [(1 : ℚ), -1, 1, -1] = 0 := by norm_num [qMean]
  have hv0 : qVar [(1 : ℚ), 1, -1, -1] = 1 := by norm_num [qVar, qMean]
  have hv1 : qVar [(1 : ℚ), -1, 1, -1] = 1 := by norm_num [qVar, qMean]
  have hs0 : stdReal [(1 : ℚ), 1, -1, -1] = 1 := by
    unfold stdReal
    rw [if_neg (by rw [hv0]; norm_num), hv0]
    simp
  have hs1 : stdReal [(1 : ℚ), -1, 1, -1] = 1 := by
    unfold stdReal
    rw [if_neg (by rw [hv1]; norm_num), hv1]
    simp
  have hN : powerNormalizedR c7data c7feats = n7 := by
    unfold powerNormalizedR
    rw [hM]
    unfold normalizedMatrixR
    simp only [List.map_cons, List.map_nil, List.mapIdx_cons, List.mapIdx_nil,
      hcol0, hcol1, hcol2, normEntry, hm0, hm1, hs0, hs1, n7]
    norm_num
  have hvar1 : varExplained1 (covOfR n7 3) = 100 / 3 := by
    unfold varExplained1
    rw [covOfR_n7, cC7_lambda1, cC7_trace]
    norm_num
  have hvar2 : varExplained2 (covOfR n7 3) = 200 / 3 := by
    unfold varExplained2
    rw [covOfR_n7, cC7_lambda2, cC7_trace]
    norm_num
  refine ⟨hN, ?_, ?_, ?_⟩
  · rw [hN]
    exact hvar1
  · rw [hN]
    exact hvar2
  · rw [hN, hvar1, hvar2]
    norm_num

/-! ## C8 -/

/-- C8 counterexample: in the comparison aggregator, a numeric feature with
zero non-missing values among the selected records does not yield an
undefined/null mean — the || 0 coalescing makes it the number 0.  On the
one-record dataset whose record has no age, computeStats reports avgAge =
0, while the mean the spec prescribes (specCompAvgAge, modelled from the
spec words) is undefined. -/
theorem c8_counterexample :
    computeStats cData [0] = some ⟨0, 20, 120, 0, 0⟩ ∧
    specCompAvgAge cData [0] = none := by
  constructor <;>
  · simp [computeStats, specCompAvgAge, cData, cRec, d3mean, pctOf, List.filterMap]

/-- C8 amended: the three aggregations (full cohort, Selection, Pin) are
computed independently by the same computeStats — each of the three
components depends only on its own index set — but a numeric feature with
zero non-missing values yields the number 0 (the undefined d3.mean
coalesced by || 0), not an undefined/null mean. -/
theorem c8_amended :
    (∀ (data : List Rec) (sel pinA pinB : List ℕ),
      (comparisonStats data sel pinA).2.1 = (comparisonStats data sel pinB).2.1) ∧
    (∀ (data : List Rec) (selA selB pin : List ℕ),
      (comparisonStats data selA pin).2.2 = (comparisonStats data selB pin).2.2) ∧
    (∀ (data : List Rec) (sel pin : List ℕ),
      (comparisonStats data sel pin).1 = computeStats data (List.range data.length)) ∧
    (∀ (data : List Rec) (indices : List ℕ) (s : CompStats),
      computeStats data indices = some s → specCompAvgAge data indices = none →
      s.avgAge = 0) := by
  refine ⟨fun _ _ _ _ => rfl, fun _ _ _ _ => rfl, fun _ _ _ => rfl, ?_⟩
  intro data indices s h1 h2
  simp only [specCompAvgAge] at h2
  by_cases hA : indices.length = 0
  · simp [computeStats, hA] at h1
  · by_cases hB : (indices.filterMap (fun i => data[i]?)).length = 0
    · simp [computeStats, hA, hB] at h1
    · simp only [computeStats, if_neg hA, if_neg hB, Option.some_inj] at h1
      rw [← h1]
      simp [h2]

/-- C8 witness: the amended coalescing conclusion at the concrete
one-record dataset with a missing age. -/
theorem c8_amended_witness :
    computeStats cData [0] = some ⟨0, 20, 120, 0, 0⟩ ∧
    specCompAvgAge cData [0] = none ∧
    (⟨0, 20, 120, 0, 0⟩ : CompStats).avgAge = 0 := by
  have hc : computeStats cData [0] = some ⟨0, 20, 120, 0, 0⟩ := by
    simp [computeStats, cData, cRec, d3mean, pctOf, List.filterMap]
  have hs : specCompAvgAge cData [0] = none := by
    simp [specCompAvgAge, cData, cRec, d3mean, List.filterMap]
  exact ⟨hc, hs, c8_amended.2.2.2 cData [0] ⟨0, 20, 120, 0, 0⟩ hc hs⟩

/-! ## C9 -/

/-- C9: the summary aggregator returns the no-data placeholder on an empty
index set; on a non-empty index set of size k it reports, for a binary
flag, count(value === 1) / k * 100 (missing and non-1 values count as
not-true) and, for a numeric feature, the d3.mean ignoring missing values;
on the 4-record fixture with ages [40, 50, 60, 70] and male flags
[1, 0, 1, 0] the mean age is 55 and the male percentage 50. -/
theorem c9_aggregator :
    (∀ data : List Rec, summarize data [] = none) ∧
    (∀ (data : List Rec) (indices : List ℕ), indices ≠ [] →
      ∃ s, summarize data indices = some s ∧
        s.n = indices.length ∧
        s.pctMale = ((indices.filter (fun i => recAt data i "male" = some 1)).length : ℚ) /
          (indices.length : ℚ) * 100 ∧
        s.avgAge = d3mean (indices.map (fun i => recAt data i "age"))) ∧
    (summarize fix4 [0, 1, 2, 3]).map SummStats.avgAge = some (some 55) ∧
    (summarize fix4 [0, 1, 2, 3]).map SummStats.pctMale = some 50 := by
  refine ⟨fun data => by simp [summarize], ?_, ?_, ?_⟩
  · intro data indices h
    have hlen : ¬ indices.length = 0 := by
      simpa [List.length_eq_zero] using h
    simp only [summarize, if_neg hlen]
    refine ⟨_, rfl, List.length_map _ _, ?_, ?_⟩
    · simp only [pctOf, List.filter_map, List.length_map, Function.comp_def]
    · simp only [List.map_map, Function.comp_def]
  · simp [summarize, fix4, fixRec, recAt, d3mean, List.filterMap]
    norm_num
  · simp [summarize, fix4, fixRec, recAt, pctOf]
    norm_num

/-- C9 witness: the aggregator theorem instantiated at the fixture. -/
theorem c9_aggregator_witness :
    ([0, 1, 2, 3] : List ℕ) ≠ [] ∧
    (∃ s, summarize fix4 [0, 1, 2, 3] = some s ∧
      s.n = [0, 1, 2, 3].length ∧
      s.pctMale = ((([0, 1, 2, 3] : List ℕ).filter
          (fun i => recAt fix4 i "male" = some 1)).length : ℚ) /
        (([0, 1, 2, 3] : List ℕ).length : ℚ) * 100 ∧
      s.avgAge = d3mean (([0, 1, 2, 3] : List ℕ).map (fun i => recAt fix4 i "age"))) :=
  ⟨by decide, c9_aggregator.2.1 fix4 [0, 1, 2, 3] (by decide)⟩

/-! ## C10 -/

/-- C10: in every t-SNE update step, each coordinate gain is multiplied by
0.8 when the gradient sign equals the sign of the previous momentum step
and grows by 0.2 otherwise, floored at 0.01 (so gains never drop below
0.01); the momentum coefficient is 0.5 before iteration 250 and 0.8 from
then on, with learning rate 200 in the momentum update; and exactly on
every 10th iteration the updated embedding is re-centered to zero mean on
both axes. -/
theorem c10_tsne_update :
    (∀ (iter : ℕ) (grad : ℚ × ℚ) (p : TPt),
      (updPoint iter grad p).g1 =
        max (1 / 100) (if jsSign grad.1 = jsSign p.iy1 then p.g1 * (8 / 10) else p.g1 + 2 / 10) ∧
      (updPoint iter grad p).g2 =
        max (1 / 100) (if jsSign grad.2 = jsSign p.iy2 then p.g2 * (8 / 10) else p.g2 + 2 / 10) ∧
      1 / 100 ≤ (updPoint iter grad p).g1 ∧
      1 / 100 ≤ (updPoint iter grad p).g2 ∧
      (updPoint iter grad p).iy1 =
        momCoef iter * p.iy1 - 200 * (updPoint iter grad p).g1 * grad.1 ∧
      (updPoint iter grad p).iy2 =
        momCoef iter * p.iy2 - 200 * (updPoint iter grad p).g2 * grad.2 ∧
      (updPoint iter grad p).y1 = p.y1 + (updPoint iter grad p).iy1 ∧
      (updPoint iter grad p).y2 = p.y2 + (updPoint iter grad p).iy2) ∧
    (∀ iter : ℕ, iter < 250 → momCoef iter = 1 / 2) ∧
    (∀ iter : ℕ, 250 ≤ iter → momCoef iter = 8 / 10) ∧
    (∀ (iter : ℕ) (grads : List (ℚ × ℚ)) (pts : List TPt), iter % 10 ≠ 0 →
      tsneUpdate iter grads pts = List.zipWith (updPoint iter) grads pts) ∧
    (∀ (iter : ℕ) (grads : List (ℚ × ℚ)) (pts : List TPt),
      iter % 10 = 0 → grads ≠ [] → pts ≠ [] →
      qMean ((tsneUpdate iter grads pts).map (fun p => p.y1)) = 0 ∧
      qMean ((tsneUpdate iter grads pts).map (fun p => p.y2)) = 0) := by
  have hgain : ∀ (x : ℚ), (if x < 1 / 100 then 1 / 100 else x) = max (1 / 100) x := by
    intro x
    split_ifs with hx
    · exact (max_eq_left hx.le).symm
    · exact (max_eq_right (not_lt.mp hx)).symm
  refine ⟨?_, ?_, ?_, ?_, ?_⟩
  · intro iter grad p
    have h1 : (updPoint iter grad p).g1 = updGain p.g1 grad.1 p.iy1 := rfl
    have h2 : (updPoint iter grad p).g2 = updGain p.g2 grad.2 p.iy2 := rfl
    have e1 : (updPoint iter grad p).g1 =
        max (1 / 100) (if jsSign grad.1 = jsSign p.iy1 then p.g1 * (8 / 10) else p.g1 + 2 / 10) := by
      rw [h1]; simp only [updGain]; exact hgain _
    have e2 : (updPoint iter grad p).g2 =
        max (1 / 100) (if jsSign grad.2 = jsSign p.iy2 then p.g2 * (8 / 10) else p.g2 + 2 / 10) := by
      rw [h2]; simp only [updGain]; exact hgain _
    exact ⟨e1, e2, e1 ▸ le_max_left _ _, e2 ▸ le_max_left _ _, rfl, rfl, rfl, rfl⟩
  · intro iter h
    simp [momCoef, h]
  · intro iter h
    simp [momCoef, not_lt.mpr h]
  · intro iter grads pts h
    simp [tsneUpdate, h]
  · intro iter grads pts h hg hp
    have hz : List.zipWith (updPoint iter) grads pts ≠ [] := by
      have h0 : (List.zipWith (updPoint iter) grads pts).length ≠ 0 := by
        rw [List.length_zipWith]
        have : 0 < grads.length := List.length_pos.mpr hg
        have : 0 < pts.length := List.length_pos.mpr hp
        omega
      exact fun hnil => h0 (by rw [hnil]; rfl)
    have := recenter_mean_zero (List.zipWith (updPoint iter) grads pts) hz
    simpa [tsneUpdate, h] using this

/-- C10 witness: the t-SNE update theorem at a concrete step (iteration 0,
one point, gradient (1, 0)) and at concrete iteration counts. -/
theorem c10_tsne_update_witness :
    ((0 : ℕ) % 10 = 0) ∧ ([((1 : ℚ), (0 : ℚ))] ≠ ([] : List (ℚ × ℚ))) ∧
    ([pt0] ≠ ([] : List TPt)) ∧
    (qMean ((tsneUpdate 0 [(1, 0)] [pt0]).map (fun p => p.y1)) = 0 ∧
     qMean ((tsneUpdate 0 [(1, 0)] [pt0]).map (fun p => p.y2)) = 0) ∧
    ((1 : ℕ) % 10 ≠ 0) ∧
    tsneUpdate 1 [(1, 0)] [pt0] = List.zipWith (updPoint 1) [(1, 0)] [pt0] ∧
    ((0 : ℕ) < 250) ∧ momCoef 0 = 1 / 2 ∧ ((250 : ℕ) ≤ 250) ∧ momCoef 250 = 8 / 10 :=
  ⟨rfl, by decide, by decide,
   c10_tsne_update.2.2.2.2 0 [(1, 0)] [pt0] rfl (by decide) (by decide),
   by decide, c10_tsne_update.2.2.2.1 1 [(1, 0)] [pt0] (by decide),
   by decide, c10_tsne_update.2.1 0 (by decide),
   by decide, c10_tsne_update.2.2.1 250 (by decide)⟩

end Cohort
